import Mathlib

/-!
Shallow embedding of the output-path planning core of safaribooks-rs
(`src/epub.rs`) and of the cookie store (`src/cookies.rs`).

Strings are modelled as `List Char` (Rust `String` is a sequence of Unicode
scalar values); byte lengths are computed with `Char.utf8Size`, which is the
number of bytes of the UTF-8 encoding of a scalar value.  Paths (`PathBuf`)
are modelled as the list of components pushed onto a base path.  The Unicode
NFC normalization performed by the external `unicode_normalization` crate is
not part of this repository; it is kept as an explicit function parameter
`nfc` of the sanitizer and the planner.
-/

namespace Safari

/-- The illegal Windows/FAT characters replaced by the sanitizer
(`const ILLEGAL` in `src/epub.rs`). -/
def ILLEGAL : List Char := ['<', '>', ':', '"', '/', '\\', '|', '?', '*']

/-- Rust `char::is_control`: the Unicode general category Cc,
i.e. U+0000..U+001F and U+007F..U+009F. -/
def isRustControl (c : Char) : Bool :=
  (c.toNat ≤ 0x1F) || (0x7F ≤ c.toNat && c.toNat ≤ 0x9F)

/-- Rust `char::is_whitespace`: the Unicode `White_Space` property
(25 code points). -/
def isRustWhitespace (c : Char) : Bool :=
  (0x09 ≤ c.toNat && c.toNat ≤ 0x0D) || (c.toNat == 0x20) || (c.toNat == 0x85) ||
  (c.toNat == 0xA0) || (c.toNat == 0x1680) ||
  (0x2000 ≤ c.toNat && c.toNat ≤ 0x200A) ||
  (c.toNat == 0x2028) || (c.toNat == 0x2029) || (c.toNat == 0x202F) ||
  (c.toNat == 0x205F) || (c.toNat == 0x3000)

/-- First cleaning pass of `sanitize_filename`: every control character and
every member of `ILLEGAL` is replaced by an underscore, all other characters
are kept unchanged. -/
def replaceIllegal (l : List Char) : List Char :=
  l.map (fun ch => if isRustControl ch || ILLEGAL.contains ch then '_' else ch)

/-- Second cleaning pass of `sanitize_filename`: collapse every maximal run
of whitespace characters into a single space.  The boolean argument is the
`prev_was_whitespace` flag of the source loop. -/
def collapseWs : List Char → Bool → List Char
  | [], _ => []
  | ch :: rest, prev =>
    if isRustWhitespace ch then
      if prev then collapseWs rest true else ' ' :: collapseWs rest true
    else ch :: collapseWs rest false

/-- Rust `str::trim`: remove leading and trailing `White_Space` characters. -/
def trimChars (l : List Char) : List Char :=
  ((l.dropWhile isRustWhitespace).reverse.dropWhile isRustWhitespace).reverse

/-- `sanitize_filename` from `src/epub.rs`: NFC-normalize (the normalization
itself lives in the external `unicode_normalization` crate and is passed in
as `nfc`), replace illegal/control characters by underscores, collapse
whitespace runs, trim. -/
def sanitize_filename (nfc : List Char → List Char) (input : List Char) : List Char :=
  trimChars (collapseWs (replaceIllegal (nfc input)) false)

/-- UTF-8 byte length of a string, Rust `str::len`. -/
def utf8Len (l : List Char) : Nat := (l.map Char.utf8Size).sum

/-- Longest prefix whose UTF-8 byte length stays within the budget.  The
source finds it by backing the byte index `end` off from `max_bytes` to the
nearest character boundary; since the boundaries are exactly the partial sums
of the characters' UTF-8 sizes, that index is reached by taking characters
greedily while they fit. -/
def truncAux : List Char → Nat → List Char
  | [], _ => []
  | c :: cs, n => if c.utf8Size ≤ n then c :: truncAux cs (n - c.utf8Size) else []

/-- `truncate_utf8_by_byte` from `src/epub.rs`: return `s` unchanged when it
already fits in `max_bytes` bytes, otherwise cut it at the largest character
boundary not exceeding `max_bytes` (empty when that boundary is 0). -/
def truncate_utf8_by_byte (s : List Char) (max_bytes : Nat) : List Char :=
  if utf8Len s ≤ max_bytes then s else truncAux s max_bytes

/-- A filesystem path, modelled as the list of name components joined onto
an (elided) base. -/
abbrev FsPath := List (List Char)

/-- `Path::join` with a single component. -/
def pathJoin (p : FsPath) (name : List Char) : FsPath := p ++ [name]

/-- The planned EPUB directory structure (`struct EpubSkeleton`). -/
structure EpubSkeleton where
  root : FsPath
  meta_inf : FsPath
  oebps : FsPath

/-- Maximum number of bytes in a filename (`const MAX_BYTES` in `plan`). -/
def MAX_BYTES : Nat := 255

/-- The root directory name computed inside `EpubSkeleton::plan`:
`"{truncated_title} ({bookid})"` when the sanitized title is non-empty,
`"({bookid})"` otherwise.  `saturating_sub` is Nat subtraction. -/
def planRootName (nfc : List Char → List Char) (title bookid : List Char) : List Char :=
  let clean_title := sanitize_filename nfc title
  if clean_title ≠ [] then
    let title_max_length := MAX_BYTES - (3 + utf8Len bookid)
    let truncated_title := truncate_utf8_by_byte clean_title title_max_length
    truncated_title ++ ' ' :: '(' :: (bookid ++ [')'])
  else
    '(' :: (bookid ++ [')'])

/-- `EpubSkeleton::plan`: build the root directory under the base books
directory and derive the `META-INF` and `OEBPS` subdirectories. -/
def plan (nfc : List Char → List Char) (base_books_dir : FsPath)
    (title bookid : List Char) : EpubSkeleton :=
  let root_dir := pathJoin base_books_dir (planRootName nfc title bookid)
  { meta_inf := pathJoin root_dir "META-INF".toList
    oebps := pathJoin root_dir "OEBPS".toList
    root := root_dir }

/-- The byte content written by `write_mimetype`: the bytes of the literal
`b"application/epub+zip"`. -/
def MIMETYPE_BYTES : List Nat := "application/epub+zip".toList.map Char.toNat

/-- `EpubSkeleton::write_mimetype`, as a pure description of its single
filesystem effect: the path written and the exact bytes written there. -/
def write_mimetype (sk : EpubSkeleton) : FsPath × List Nat :=
  (pathJoin sk.root "mimetype".toList, MIMETYPE_BYTES)

/-- Lexicographic order on strings by scalar value, Rust `str::lt` (byte
order of the UTF-8 encodings, which coincides with scalar-value order). -/
def strLt : List Char → List Char → Bool
  | [], [] => false
  | [], _ :: _ => true
  | _ :: _, [] => false
  | a :: as, b :: bs =>
    if a.toNat < b.toNat then true else if b.toNat < a.toNat then false else strLt as bs

/-- Rust `str::le`, used through `a.cmp(b)` in the sort of
`to_header_value`. -/
def strLe (x y : List Char) : Bool := !(strLt y x)

/-- One cookie entry (`struct CookieEntry`). -/
structure CookieEntry where
  name : List Char
  value : List Char
deriving DecidableEq

/-- The normalized cookie store.  The Rust `HashMap<String, String>` is
modelled as its list of entries; a well-formed store has no duplicate names
(HashMap keys are unique) and the unspecified iteration order is captured by
quantifying over permutations of the entry list. -/
abbrev CookieMap := List ((List Char) × (List Char))

/-- Names of a cookie map. -/
def cookieNames (m : CookieMap) : List (List Char) := m.map Prod.fst

/-- Order on entries used by `pairs.sort_by(|(a,_),(b,_)| a.cmp(b))`. -/
def pairLe (p q : (List Char) × (List Char)) : Bool := strLe p.1 q.1

/-- Render one `name=value` pair (`format!("{k}={v}")`). -/
def renderPair (p : (List Char) × (List Char)) : List Char := p.1 ++ '=' :: p.2

/-- `Vec::join("; ")` on the rendered pairs. -/
def joinSemi : List (List Char) → List Char
  | [] => []
  | [x] => x
  | x :: y :: rest => x ++ ';' :: ' ' :: joinSemi (y :: rest)

/-- `CookieStore::to_header_value`: sort the entries by name and join the
rendered `name=value` pairs with `"; "`. -/
def to_header_value (store : CookieMap) : List Char :=
  joinSemi ((store.mergeSort pairLe).map renderPair)

/-- A parsed JSON document (the shape of a `serde_json::Value`).  Object
keys are unique in a `Value`, numbers are irrelevant to the cookie claims
and carried as integers. -/
inductive Json where
  | null
  | bool (b : Bool)
  | num (n : Int)
  | str (s : List Char)
  | arr (items : List Json)
  | obj (fields : List ((List Char) × Json))

/-- Extract a JSON string. -/
def Json.asString : Json → Option (List Char)
  | .str s => some s
  | _ => none

/-- Fail-fast traversal of a list with a fallible element deserializer
(the semantics of serde sequence/map deserialization). -/
def traverseOpt (f : α → Option β) : List α → Option (List β)
  | [] => some []
  | a :: l =>
    match f a with
    | some b => (traverseOpt f l).map (fun bs => b :: bs)
    | none => none

/-- Deserialization of the `CookiesJson::Map` variant
(`HashMap<String, String>`): succeeds exactly on an object all of whose
values are strings. -/
def tryMap : Json → Option CookieMap
  | .obj fields => traverseOpt (fun p => (p.2.asString).map (fun s => (p.1, s))) fields
  | _ => none

/-- Combine the extracted `name` and `value` fields of a cookie entry;
the entry deserializes only when both are present (as strings). -/
def mkEntry : Option (List Char) → Option (List Char) → Option CookieEntry
  | some n, some v => some ⟨n, v⟩
  | _, _ => none

/-- Deserialization of one `CookieEntry` from a JSON value: an object whose
`name` and `value` fields are strings; unknown fields are ignored (serde
default). -/
def entryOfJson : Json → Option CookieEntry
  | .obj fields =>
    mkEntry ((fields.lookup "name".toList).bind Json.asString)
      ((fields.lookup "value".toList).bind Json.asString)
  | _ => none

/-- Deserialization of the `CookiesJson::List` variant
(`Vec<CookieEntry>`): succeeds exactly on an array of cookie-entry
objects. -/
def tryList : Json → Option (List CookieEntry)
  | .arr items => traverseOpt entryOfJson items
  | _ => none

/-- `HashMap::insert`: replace the value when the name is present, append
the new entry otherwise. -/
def insertPair (m : CookieMap) (k v : List Char) : CookieMap :=
  if m.any (fun p => p.1 == k) then
    m.map (fun p => if p.1 == k then (k, v) else p)
  else m ++ [(k, v)]

/-- Lookup in a cookie map. -/
def lookupPair (m : CookieMap) (k : List Char) : Option (List Char) :=
  (m.find? (fun p => p.1 == k)).map Prod.snd

/-- The `CookiesJson::List` branch of `from_value`: fold the entries into
the map with `insert`, so on duplicate names the last occurrence wins. -/
def listToMap (entries : List CookieEntry) : CookieMap :=
  entries.foldl (fun acc e => insertPair acc e.name e.value) []

/-- `CookieStore::from_value`: an untagged deserialization that first tries
the map shape and then the list shape (serde tries the variants of
`CookiesJson` in declaration order). -/
def from_value (v : Json) : Option CookieMap :=
  match tryMap v with
  | some m => some m
  | none => (tryList v).map listToMap

/-- The map JSON shape accepted by `CookiesJson`: an object of strings. -/
def isMapShape : Json → Bool
  | .obj fields => fields.all (fun p => p.2.asString.isSome)
  | _ => false

/-- The cookie-entry JSON shape: an object with string `name` and `value`
fields. -/
def isEntryShape (j : Json) : Bool :=
  match j with
  | .obj fields =>
    ((fields.lookup "name".toList).bind Json.asString).isSome &&
    ((fields.lookup "value".toList).bind Json.asString).isSome
  | _ => false

/-- The list JSON shape accepted by `CookiesJson`: an array of
cookie-entry objects. -/
def isListShape : Json → Bool
  | .arr items => items.all isEntryShape
  | _ => false

/-- The value of the last entry of a given name in a list of cookie
entries. -/
def lastValueFor (entries : List CookieEntry) (k : List Char) : Option (List Char) :=
  (entries.reverse.find? (fun e => e.name == k)).map CookieEntry.value

/-- Boolean check that a string has no two adjacent whitespace characters. -/
def noTwoWs : List Char → Bool
  | a :: b :: rest => (!(isRustWhitespace a && isRustWhitespace b)) && noTwoWs (b :: rest)
  | _ => true

theorem utf8Len_nil : utf8Len [] = 0 := rfl

theorem utf8Len_cons (c : Char) (l : List Char) :
    utf8Len (c :: l) = c.utf8Size + utf8Len l := by
  simp [utf8Len]

theorem utf8Len_append (l₁ l₂ : List Char) :
    utf8Len (l₁ ++ l₂) = utf8Len l₁ + utf8Len l₂ := by
  simp [utf8Len]

theorem truncAux_of_le (s : List Char) : ∀ n, utf8Len s ≤ n → truncAux s n = s := by
  induction s with
  | nil => intro n _; rfl
  | cons c cs ih =>
    intro n h
    rw [utf8Len_cons] at h
    have h1 : c.utf8Size ≤ n := by omega
    simp only [truncAux, if_pos h1]
    rw [ih (n - c.utf8Size) (by omega)]

theorem truncate_eq_truncAux (s : List Char) (n : Nat) :
    truncate_utf8_by_byte s n = truncAux s n := by
  unfold truncate_utf8_by_byte
  split
  · exact (truncAux_of_le s n (by assumption)).symm
  · rfl

theorem truncAux_append_eq (s : List Char) : ∀ n, ∃ t, truncAux s n ++ t = s := by
  induction s with
  | nil => intro n; exact ⟨[], rfl⟩
  | cons c cs ih =>
    intro n
    by_cases h : c.utf8Size ≤ n
    · obtain ⟨t, ht⟩ := ih (n - c.utf8Size)
      refine ⟨t, ?_⟩
      simp only [truncAux, if_pos h, List.cons_append, ht]
    · exact ⟨c :: cs, by simp [truncAux, if_neg h]⟩

theorem utf8Len_truncAux (s : List Char) : ∀ n, utf8Len (truncAux s n) ≤ n := by
  induction s with
  | nil => intro n; simp [truncAux, utf8Len]
  | cons c cs ih =>
    intro n
    by_cases h : c.utf8Size ≤ n
    · simp only [truncAux, if_pos h, utf8Len_cons]
      have := ih (n - c.utf8Size)
      omega
    · simp [truncAux, if_neg h, utf8Len]

theorem truncAux_longest (s : List Char) : ∀ n p q, p ++ q = s → utf8Len p ≤ n →
    p.length ≤ (truncAux s n).length := by
  induction s with
  | nil =>
    intro n p q hpq _
    have hp : p = [] := by cases p <;> simp_all
    simp [hp]
  | cons c cs ih =>
    intro n p q hpq hp
    cases p with
    | nil => simp
    | cons a p2 =>
      have hinj : a = c ∧ p2 ++ q = cs := by
        rw [List.cons_append] at hpq
        exact ⟨(List.cons.inj hpq).1, (List.cons.inj hpq).2⟩
      obtain ⟨ha, htl⟩ := hinj
      subst ha
      rw [utf8Len_cons] at hp
      have h1 : a.utf8Size ≤ n := by omega
      simp only [truncAux, if_pos h1, List.length_cons]
      have := ih (n - a.utf8Size) p2 q htl (by omega)
      omega

theorem planRootName_eq (nfc : List Char → List Char) (title bookid : List Char) :
    planRootName nfc title bookid =
      if sanitize_filename nfc title = [] then '(' :: (bookid ++ [')'])
      else truncate_utf8_by_byte (sanitize_filename nfc title) (MAX_BYTES - (3 + utf8Len bookid)) ++
        ' ' :: '(' :: (bookid ++ [')']) := by
  unfold planRootName
  by_cases hc : sanitize_filename nfc title = [] <;> simp [hc]

theorem mem_replaceIllegal {c : Char} {l : List Char} (h : c ∈ replaceIllegal l) :
    isRustControl c = false ∧ ILLEGAL.contains c = false := by
  unfold replaceIllegal at h
  obtain ⟨a, _, ha⟩ := List.mem_map.1 h
  by_cases hc : isRustControl a || ILLEGAL.contains a
  · rw [if_pos hc] at ha
    subst ha
    exact ⟨by decide, by decide⟩
  · rw [if_neg hc] at ha
    subst ha
    simp only [Bool.or_eq_true, not_or, Bool.not_eq_true] at hc
    exact hc

theorem mem_collapseWs_sub {c : Char} : ∀ (l : List Char) (p : Bool),
    c ∈ collapseWs l p → c = ' ' ∨ c ∈ l := by
  intro l
  induction l with
  | nil =>
    intro p h
    simp [collapseWs] at h
  | cons a rest ih =>
    intro p h
    by_cases ha : isRustWhitespace a
    · cases p
      · simp only [collapseWs, ha, if_true, if_false, Bool.false_eq_true,
          List.mem_cons] at h
        rcases h with h | h
        · exact Or.inl h
        · rcases ih true h with h2 | h2
          · exact Or.inl h2
          · exact Or.inr (List.mem_cons_of_mem _ h2)
      · simp only [collapseWs, ha, if_true] at h
        rcases ih true h with h2 | h2
        · exact Or.inl h2
        · exact Or.inr (List.mem_cons_of_mem _ h2)
    · simp only [collapseWs, ha, if_false, Bool.false_eq_true, List.mem_cons] at h
      rcases h with h | h
      · exact Or.inr (by simp [h])
      · rcases ih false h with h2 | h2
        · exact Or.inl h2
        · exact Or.inr (List.mem_cons_of_mem _ h2)

theorem mem_collapseWs_ws {c : Char} : ∀ (l : List Char) (p : Bool),
    c ∈ collapseWs l p → isRustWhitespace c = true → c = ' ' := by
  intro l
  induction l with
  | nil =>
    intro p h _
    simp [collapseWs] at h
  | cons a rest ih =>
    intro p h hw
    by_cases ha : isRustWhitespace a
    · cases p
      · simp only [collapseWs, ha, if_true, if_false, Bool.false_eq_true,
          List.mem_cons] at h
        rcases h with h | h
        · exact h
        · exact ih true h hw
      · simp only [collapseWs, ha, if_true] at h
        exact ih true h hw
    · simp only [collapseWs, ha, if_false, Bool.false_eq_true, List.mem_cons] at h
      rcases h with h | h
      · subst h
        rw [hw] at ha
        exact absurd rfl ha
      · exact ih false h hw

theorem collapseWs_true_head {c : Char} : ∀ (l : List Char),
    (collapseWs l true).head? = some c → isRustWhitespace c = false := by
  intro l
  induction l with
  | nil =>
    intro h
    simp [collapseWs] at h
  | cons a rest ih =>
    intro h
    by_cases ha : isRustWhitespace a
    · simp only [collapseWs, ha, if_true] at h
      exact ih h
    · simp only [collapseWs, ha, if_false, Bool.false_eq_true, List.head?_cons,
        Option.some.injEq] at h
      subst h
      exact Bool.eq_false_iff.mpr ha

theorem noTwoWs_tail {a : Char} {l : List Char} (h : noTwoWs (a :: l) = true) :
    noTwoWs l = true := by
  cases l with
  | nil => rfl
  | cons b rest =>
    rw [noTwoWs, Bool.and_eq_true] at h
    exact h.2

theorem noTwoWs_cons_head (a : Char) (l : List Char)
    (h1 : ∀ c, l.head? = some c → (isRustWhitespace a && isRustWhitespace c) = false)
    (h2 : noTwoWs l = true) : noTwoWs (a :: l) = true := by
  cases l with
  | nil => rfl
  | cons b rest =>
    rw [noTwoWs, Bool.and_eq_true]
    exact ⟨by rw [h1 b rfl]; rfl, h2⟩

theorem noTwoWs_collapseWs : ∀ (l : List Char) (p : Bool),
    noTwoWs (collapseWs l p) = true := by
  intro l
  induction l with
  | nil =>
    intro p
    rfl
  | cons a rest ih =>
    intro p
    by_cases ha : isRustWhitespace a
    · cases p
      · simp only [collapseWs, ha, if_true, if_false, Bool.false_eq_true]
        refine noTwoWs_cons_head _ _ (fun c hc => ?_) (ih true)
        rw [collapseWs_true_head rest hc, Bool.and_false]
      · simp only [collapseWs, ha, if_true]
        exact ih true
    · simp only [collapseWs, ha, if_false, Bool.false_eq_true]
      refine noTwoWs_cons_head _ _ (fun c _ => ?_) (ih false)
      rw [Bool.eq_false_iff.mpr ha, Bool.false_and]

theorem noTwoWs_iff : ∀ l : List Char, noTwoWs l = true ↔
    List.Chain' (fun a b => (isRustWhitespace a && isRustWhitespace b) = false) l := by
  intro l
  induction l with
  | nil => simp [noTwoWs]
  | cons a rest ih =>
    cases rest with
    | nil => simp [noTwoWs]
    | cons b rest2 =>
      rw [noTwoWs, Bool.and_eq_true, List.chain'_cons, ← ih, Bool.not_eq_true']

theorem dropWhile_head_not (p : Char → Bool) : ∀ (l : List Char) (c : Char),
    (l.dropWhile p).head? = some c → p c = false := by
  intro l
  induction l with
  | nil =>
    intro c h
    simp [List.dropWhile] at h
  | cons a rest ih =>
    intro c h
    by_cases hp : p a
    · rw [List.dropWhile_cons, if_pos hp] at h
      exact ih c h
    · rw [List.dropWhile_cons, if_neg hp, List.head?_cons, Option.some.injEq] at h
      subst h
      exact Bool.eq_false_iff.mpr hp

theorem mem_trimChars {c : Char} {l : List Char} (h : c ∈ trimChars l) : c ∈ l := by
  unfold trimChars at h
  rw [List.mem_reverse] at h
  have h2 := (List.dropWhile_sublist _).subset h
  rw [List.mem_reverse] at h2
  exact (List.dropWhile_sublist _).subset h2

theorem trimChars_last (l : List Char) : ∀ c, (trimChars l).getLast? = some c →
    isRustWhitespace c = false := by
  intro c h
  unfold trimChars at h
  rw [List.getLast?_reverse] at h
  exact dropWhile_head_not _ _ _ h

theorem trimChars_head (l : List Char) : ∀ c, (trimChars l).head? = some c →
    isRustWhitespace c = false := by
  intro c h
  unfold trimChars at h
  rw [List.head?_reverse] at h
  obtain ⟨t, ht⟩ := List.dropWhile_suffix
    (l := ((l.dropWhile isRustWhitespace).reverse)) isRustWhitespace
  have hx : ((l.dropWhile isRustWhitespace).reverse.dropWhile isRustWhitespace).getLast?
      = some c := h
  have hy : ((l.dropWhile isRustWhitespace).reverse).getLast? = some c := by
    rw [← ht, List.getLast?_append, hx]
    rfl
  rw [List.getLast?_reverse] at hy
  exact dropWhile_head_not _ _ _ hy

theorem noTwoWs_trimChars (l : List Char) (h : noTwoWs l = true) :
    noTwoWs (trimChars l) = true := by
  rw [noTwoWs_iff] at h ⊢
  have comm : ∀ a b : Char, (isRustWhitespace a && isRustWhitespace b) = false →
      (isRustWhitespace b && isRustWhitespace a) = false := by
    intro a b hab
    rw [Bool.and_comm]
    exact hab
  unfold trimChars
  have h1 : List.Chain' (fun a b => (isRustWhitespace a && isRustWhitespace b) = false)
      (l.dropWhile isRustWhitespace) := h.suffix (List.dropWhile_suffix _)
  have h2 : List.Chain' (fun a b => (isRustWhitespace a && isRustWhitespace b) = false)
      ((l.dropWhile isRustWhitespace).reverse) := List.chain'_reverse.mpr (h1.imp comm)
  have h3 : List.Chain' (fun a b => (isRustWhitespace a && isRustWhitespace b) = false)
      ((l.dropWhile isRustWhitespace).reverse.dropWhile isRustWhitespace) :=
    h2.suffix (List.dropWhile_suffix _)
  exact List.chain'_reverse.mpr (h3.imp comm)

theorem sanitize_mem_clean (nfc : List Char → List Char) (s : List Char) {c : Char}
    (h : c ∈ sanitize_filename nfc s) :
    isRustControl c = false ∧ ILLEGAL.contains c = false := by
  unfold sanitize_filename at h
  rcases mem_collapseWs_sub _ _ (mem_trimChars h) with h1 | h1
  · subst h1
    exact ⟨by decide, by decide⟩
  · exact mem_replaceIllegal h1

theorem sanitize_ws_space (nfc : List Char → List Char) (s : List Char) {c : Char}
    (h : c ∈ sanitize_filename nfc s) (hw : isRustWhitespace c = true) : c = ' ' :=
  mem_collapseWs_ws _ _ (mem_trimChars h) hw

theorem sanitize_noTwoWs (nfc : List Char → List Char) (s : List Char) :
    noTwoWs (sanitize_filename nfc s) = true :=
  noTwoWs_trimChars _ (noTwoWs_collapseWs _ _)

theorem sanitize_head_clean (nfc : List Char → List Char) (s : List Char) :
    (sanitize_filename nfc s).head?.all (fun c => !isRustWhitespace c) = true := by
  cases hh : (sanitize_filename nfc s).head? with
  | none => rfl
  | some c =>
    rw [Option.all_some, Bool.not_eq_true']
    exact trimChars_head _ _ hh

theorem sanitize_last_clean (nfc : List Char → List Char) (s : List Char) :
    (sanitize_filename nfc s).getLast?.all (fun c => !isRustWhitespace c) = true := by
  cases hh : (sanitize_filename nfc s).getLast? with
  | none => rfl
  | some c =>
    rw [Option.all_some, Bool.not_eq_true']
    exact trimChars_last _ _ hh

theorem replaceIllegal_fix (l : List Char)
    (h : ∀ c ∈ l, isRustControl c = false ∧ ILLEGAL.contains c = false) :
    replaceIllegal l = l := by
  unfold replaceIllegal
  have he : ∀ a ∈ l, (if isRustControl a || ILLEGAL.contains a then '_' else a) = id a := by
    intro a ha
    rw [if_neg]
    · rfl
    · rw [(h a ha).1, (h a ha).2]
      simp
  rw [List.map_congr_left he, List.map_id]

theorem dropWhile_id_of_head (p : Char → Bool) (l : List Char)
    (h : l.head?.all (fun c => !p c) = true) : l.dropWhile p = l := by
  cases l with
  | nil => rfl
  | cons a rest =>
    rw [List.head?_cons, Option.all_some, Bool.not_eq_true'] at h
    rw [List.dropWhile_cons, if_neg]
    rw [h]
    simp

theorem trimChars_fix (l : List Char)
    (h1 : l.head?.all (fun c => !isRustWhitespace c) = true)
    (h2 : l.getLast?.all (fun c => !isRustWhitespace c) = true) :
    trimChars l = l := by
  unfold trimChars
  rw [dropWhile_id_of_head _ _ h1]
  have h2r : l.reverse.head?.all (fun c => !isRustWhitespace c) = true := by
    rw [List.head?_reverse]
    exact h2
  rw [dropWhile_id_of_head _ _ h2r, List.reverse_reverse]

theorem collapseWs_fix : ∀ (l : List Char),
    (∀ c ∈ l, isRustWhitespace c = true → c = ' ') → noTwoWs l = true →
    collapseWs l false = l ∧
    ((l.head?.all (fun c => !isRustWhitespace c)) = true → collapseWs l true = l) := by
  intro l
  induction l with
  | nil => exact fun _ _ => ⟨rfl, fun _ => rfl⟩
  | cons a rest ih =>
    intro hall hnt
    have hrest_all : ∀ c ∈ rest, isRustWhitespace c = true → c = ' ' :=
      fun c hc => hall c (List.mem_cons_of_mem _ hc)
    have hrest_nt : noTwoWs rest = true := noTwoWs_tail hnt
    by_cases ha : isRustWhitespace a
    · have ha2 : a = ' ' := hall a (List.mem_cons_self _ _) ha
      constructor
      · have hhead : rest.head?.all (fun c => !isRustWhitespace c) = true := by
          cases rest with
          | nil => rfl
          | cons b rest2 =>
            rw [noTwoWs, Bool.and_eq_true, Bool.not_eq_true', Bool.and_eq_false_iff] at hnt
            rcases hnt.1 with hb | hb
            · rw [hb] at ha
              exact absurd ha (by simp)
            · rw [List.head?_cons, Option.all_some, Bool.not_eq_true']
              exact hb
        have hr := (ih hrest_all hrest_nt).2 hhead
        subst ha2
        simp only [collapseWs, ha, if_true, if_false, Bool.false_eq_true, hr]
      · intro hh
        rw [List.head?_cons, Option.all_some, Bool.not_eq_true'] at hh
        rw [ha] at hh
        exact absurd hh (by simp)
    · have hr := (ih hrest_all hrest_nt).1
      constructor
      · simp only [collapseWs, ha, if_false, Bool.false_eq_true, hr]
      · intro _
        simp only [collapseWs, ha, if_false, Bool.false_eq_true, hr]

/-- C3: `truncate_utf8_by_byte s n` is a prefix of `s` (hence ends on a
code-point boundary and never splits a character), its UTF-8 byte length is
at most `n`, it is `s` itself when `s` already fits, and it is the longest
prefix of `s` that fits in `n` bytes (so it is empty exactly when not even
the first character fits). -/
theorem C3_truncate_safe_and_maximal (s : List Char) (n : Nat) :
    (∃ t, truncate_utf8_by_byte s n ++ t = s) ∧
    utf8Len (truncate_utf8_by_byte s n) ≤ n ∧
    (utf8Len s ≤ n → truncate_utf8_by_byte s n = s) ∧
    ∀ p q, p ++ q = s → utf8Len p ≤ n → p.length ≤ (truncate_utf8_by_byte s n).length := by
  rw [truncate_eq_truncAux]
  exact ⟨truncAux_append_eq s n, utf8Len_truncAux s n, fun h => truncAux_of_le s n h,
    fun p q hpq hp => truncAux_longest s n p q hpq hp⟩

/-- Witness for C3 at the concrete input `"a€b"` with a 3-byte budget: the
budget falls inside the 3-byte character `€`, the result keeps only `"a"`,
and the prefix `"a"` (1 byte) is not longer than the result. -/
theorem C3_witness :
    utf8Len (truncate_utf8_by_byte "a€b".toList 3) ≤ 3 ∧
    ("a".toList ++ "€b".toList = "a€b".toList ∧ utf8Len "a".toList ≤ 3) ∧
    "a".toList.length ≤ (truncate_utf8_by_byte "a€b".toList 3).length :=
  ⟨(C3_truncate_safe_and_maximal "a€b".toList 3).2.1,
   ⟨by decide, by decide⟩,
   (C3_truncate_safe_and_maximal "a€b".toList 3).2.2.2 "a".toList "€b".toList
     (by decide) (by decide)⟩

set_option maxRecDepth 8000 in
/-- Counterexample to C1 as stated: with an empty title and a 254-byte book
id, the planned root directory name is `"(" ++ bookid ++ ")"`, which is 256
bytes long, exceeding 255. -/
theorem C1_counterexample :
    255 < utf8Len (planRootName id [] (List.replicate 254 'a')) := by decide

/-- C1 amended: whenever the book id together with the three decoration
bytes fits the 255-byte filename budget (`3 + len_bytes(bookid) ≤ 255`),
the root directory name planned by `EpubSkeleton::plan` has UTF-8 byte
length at most 255. -/
theorem C1_root_name_byte_bound (nfc : List Char → List Char) (base : FsPath)
    (title bookid : List Char) (h : 3 + utf8Len bookid ≤ 255) :
    (plan nfc base title bookid).root = pathJoin base (planRootName nfc title bookid) ∧
    utf8Len (planRootName nfc title bookid) ≤ 255 := by
  refine ⟨rfl, ?_⟩
  rw [planRootName_eq]
  by_cases hc : sanitize_filename nfc title = []
  · rw [if_pos hc, utf8Len_cons, utf8Len_append, utf8Len_cons, utf8Len_nil]
    have h1 : '('.utf8Size = 1 := by decide
    have h2 : ')'.utf8Size = 1 := by decide
    omega
  · rw [if_neg hc, utf8Len_append, utf8Len_cons, utf8Len_cons, utf8Len_append, utf8Len_cons,
      utf8Len_nil]
    have h1 : '('.utf8Size = 1 := by decide
    have h2 : ')'.utf8Size = 1 := by decide
    have h3 : ' '.utf8Size = 1 := by decide
    have h4 := utf8Len_truncAux (sanitize_filename nfc title) (MAX_BYTES - (3 + utf8Len bookid))
    rw [← truncate_eq_truncAux] at h4
    have h5 : MAX_BYTES = 255 := rfl
    omega

/-- Witness for C1 (amended) at title `"T"`, book id `"9"`. -/
theorem C1_witness :
    3 + utf8Len "9".toList ≤ 255 ∧ utf8Len (planRootName id "T".toList "9".toList) ≤ 255 :=
  ⟨by decide, (C1_root_name_byte_bound id [] "T".toList "9".toList (by decide)).2⟩

/-- Counterexample to C2 as stated: the byte content written by
`write_mimetype` has length 20, not 21. -/
theorem C2_counterexample :
    (write_mimetype (plan id [] [] [])).2.length = 20 ∧
    ((write_mimetype (plan id [] [] [])).2.length == 21) = false := by
  exact ⟨by decide, by decide⟩

/-- C2 amended: `write_mimetype` writes the file `root/mimetype` whose
content is exactly the bytes of `application/epub+zip` — 20 bytes, all
ASCII, not ending in a newline, with no encoding transform. -/
theorem C2_mimetype_exact (sk : EpubSkeleton) :
    (write_mimetype sk).1 = sk.root ++ ["mimetype".toList] ∧
    (write_mimetype sk).2 = [97, 112, 112, 108, 105, 99, 97, 116, 105, 111, 110, 47,
      101, 112, 117, 98, 43, 122, 105, 112] ∧
    (write_mimetype sk).2.length = 20 ∧
    (write_mimetype sk).2.all (fun b => decide (b < 128)) = true ∧
    ((write_mimetype sk).2.getLast? == some 10) = false :=
  ⟨rfl,
   (by decide : MIMETYPE_BYTES = [97, 112, 112, 108, 105, 99, 97, 116, 105, 111, 110, 47,
     101, 112, 117, 98, 43, 122, 105, 112]),
   (by decide : MIMETYPE_BYTES.length = 20),
   (by decide : MIMETYPE_BYTES.all (fun b => decide (b < 128)) = true),
   (by decide : (MIMETYPE_BYTES.getLast? == some 10) = false)⟩

/-- C6: the planned root name is the truncated sanitized title followed by
a space and the book id in parentheses, or exactly `"(bookid)"` when the
sanitized title is empty; the book id appears verbatim in either case and
only the title part is truncated.  The scenario `plan(base, "", "123")`
yields root `base/"(123)"`. -/
theorem C6_root_name_format (nfc : List Char → List Char) (base : FsPath)
    (title bookid : List Char) :
    (sanitize_filename nfc title = [] →
      planRootName nfc title bookid = '(' :: (bookid ++ [')'])) ∧
    (sanitize_filename nfc title ≠ [] →
      planRootName nfc title bookid =
        truncate_utf8_by_byte (sanitize_filename nfc title) (MAX_BYTES - (3 + utf8Len bookid)) ++
          ' ' :: '(' :: (bookid ++ [')'])) ∧
    (plan nfc base title bookid).root = pathJoin base (planRootName nfc title bookid) ∧
    (plan id base [] "123".toList).root = pathJoin base "(123)".toList := by
  refine ⟨fun h => ?_, fun h => ?_, rfl, ?_⟩
  · rw [planRootName_eq, if_pos h]
  · rw [planRootName_eq, if_neg h]
  · exact congrArg (pathJoin base) (by decide)

/-- Witness for C6: both branches of the root-name format at concrete
inputs. -/
theorem C6_witness :
    planRootName id [] "123".toList = '(' :: ("123".toList ++ [')']) ∧
    planRootName id "T".toList "9".toList =
      truncate_utf8_by_byte (sanitize_filename id "T".toList)
          (MAX_BYTES - (3 + utf8Len "9".toList)) ++
        ' ' :: '(' :: ("9".toList ++ [')']) :=
  ⟨(C6_root_name_format id [] [] "123".toList).1 (by decide),
   (C6_root_name_format id [] "T".toList "9".toList).2.1 (by decide)⟩

/-- C9: when the sanitized title is non-empty but its truncation under the
byte budget is empty, the planned root name is `" (bookid)"` with a leading
space — the `"(bookid)"` fallback is taken only when the sanitized title is
empty before truncation. -/
theorem C9_leading_space_on_empty_truncation (nfc : List Char → List Char)
    (title bookid : List Char) (h1 : sanitize_filename nfc title ≠ [])
    (h2 : truncate_utf8_by_byte (sanitize_filename nfc title)
      (MAX_BYTES - (3 + utf8Len bookid)) = []) :
    planRootName nfc title bookid = ' ' :: '(' :: (bookid ++ [')']) := by
  rw [planRootName_eq, if_neg h1, h2, List.nil_append]

set_option maxRecDepth 8000 in
/-- Witness for C9: title `"a"` sanitizes to `"a"` (non-empty), and a
252-byte book id leaves a zero-byte title budget, so the truncated title is
empty and the root name starts with a space. -/
theorem C9_witness :
    sanitize_filename id "a".toList ≠ [] ∧
    truncate_utf8_by_byte (sanitize_filename id "a".toList)
      (MAX_BYTES - (3 + utf8Len (List.replicate 252 'b'))) = [] ∧
    planRootName id "a".toList (List.replicate 252 'b') =
      ' ' :: '(' :: (List.replicate 252 'b' ++ [')']) :=
  ⟨by decide, by decide,
   C9_leading_space_on_empty_truncation id "a".toList (List.replicate 252 'b')
     (by decide) (by decide)⟩

/-- C10: every skeleton produced by `plan` has `meta_inf` equal to the root
path extended with `META-INF` and `oebps` equal to the root path extended
with `OEBPS`. -/
theorem C10_subdir_invariant (nfc : List Char → List Char) (base : FsPath)
    (title bookid : List Char) :
    (plan nfc base title bookid).meta_inf =
      pathJoin (plan nfc base title bookid).root "META-INF".toList ∧
    (plan nfc base title bookid).oebps =
      pathJoin (plan nfc base title bookid).root "OEBPS".toList :=
  ⟨rfl, rfl⟩

theorem strLt_asymm : ∀ x y : List Char, strLt x y = true → strLt y x = false := by
  intro x
  induction x with
  | nil =>
    intro y _
    cases y with
    | nil => rfl
    | cons b bs => rfl
  | cons a as ih =>
    intro y h
    cases y with
    | nil => exact absurd h (by simp [strLt])
    | cons b bs =>
      rw [strLt] at h ⊢
      by_cases hab : a.toNat < b.toNat
      · rw [if_neg (by omega), if_pos hab]
      · rw [if_neg hab] at h
        by_cases hba : b.toNat < a.toNat
        · rw [if_pos hba] at h
          exact absurd h (by simp)
        · rw [if_neg hba] at h
          rw [if_neg hba, if_neg hab]
          exact ih bs h

theorem strLt_connex : ∀ x y : List Char, strLt x y = false → strLt y x = false → x = y := by
  intro x
  induction x with
  | nil =>
    intro y h1 _
    cases y with
    | nil => rfl
    | cons b bs => exact absurd h1 (by simp [strLt])
  | cons a as ih =>
    intro y h1 h2
    cases y with
    | nil => exact absurd h2 (by simp [strLt])
    | cons b bs =>
      rw [strLt] at h1 h2
      by_cases hab : a.toNat < b.toNat
      · rw [if_pos hab] at h1
        exact absurd h1 (by simp)
      · by_cases hba : b.toNat < a.toNat
        · rw [if_pos hba] at h2
          exact absurd h2 (by simp)
        · rw [if_neg hab, if_neg hba] at h1
          rw [if_neg hba, if_neg hab] at h2
          have hc : a = b := by
            have h3 : a.toNat = b.toNat := by omega
            apply Char.ext
            apply UInt32.ext
            exact h3
          rw [hc, ih bs h1 h2]

theorem strLt_trans : ∀ x y z : List Char,
    strLt x y = true → strLt y z = true → strLt x z = true := by
  intro x
  induction x with
  | nil =>
    intro y z h1 h2
    cases z with
    | nil =>
      cases y with
      | nil => exact h1
      | cons b bs => exact absurd h2 (by simp [strLt])
    | cons c cs => rfl
  | cons a as ih =>
    intro y z h1 h2
    cases y with
    | nil => exact absurd h1 (by simp [strLt])
    | cons b bs =>
      cases z with
      | nil => exact absurd h2 (by simp [strLt])
      | cons c cs =>
        rw [strLt] at h1 h2 ⊢
        by_cases hab : a.toNat < b.toNat
        · by_cases hbc : b.toNat < c.toNat
          · rw [if_pos (by omega)]
          · rw [if_neg hbc] at h2
            by_cases hcb : c.toNat < b.toNat
            · rw [if_pos hcb] at h2
              exact absurd h2 (by simp)
            · rw [if_pos (by omega)]
        · rw [if_neg hab] at h1
          by_cases hba : b.toNat < a.toNat
          · rw [if_pos hba] at h1
            exact absurd h1 (by simp)
          · rw [if_neg hba] at h1
            by_cases hbc : b.toNat < c.toNat
            · rw [if_pos (by omega)]
            · rw [if_neg hbc] at h2
              by_cases hcb : c.toNat < b.toNat
              · rw [if_pos hcb] at h2
                exact absurd h2 (by simp)
              · rw [if_neg hcb] at h2
                rw [if_neg (by omega), if_neg (by omega)]
                exact ih bs cs h1 h2

theorem strLe_total (x y : List Char) : (strLe x y || strLe y x) = true := by
  unfold strLe
  by_cases h : strLt y x = true
  · rw [strLt_asymm y x h]
    simp
  · rw [Bool.eq_false_iff.mpr h]
    simp

theorem strLe_trans (x y z : List Char) (h1 : strLe x y = true) (h2 : strLe y z = true) :
    strLe x z = true := by
  unfold strLe at h1 h2 ⊢
  rw [Bool.not_eq_true'] at h1 h2 ⊢
  by_cases hzx : strLt z x = true
  · exfalso
    cases hyz : strLt y z with
    | true => exact absurd (strLt_trans y z x hyz hzx) (by rw [h1]; simp)
    | false =>
      have hyzeq : y = z := strLt_connex y z hyz h2
      rw [← hyzeq] at hzx
      rw [h1] at hzx
      exact absurd hzx (by simp)
  · exact Bool.eq_false_iff.mpr hzx

theorem strLe_antisymm (x y : List Char) (h1 : strLe x y = true) (h2 : strLe y x = true) :
    x = y := by
  unfold strLe at h1 h2
  rw [Bool.not_eq_true'] at h1 h2
  exact strLt_connex x y h2 h1

/-- C7: `to_header_value` renders the entries as `name=value` pairs sorted
in ascending order of name and joined by `"; "`, and its result is
invariant under permutation of the entry list (the model of the
unspecified `HashMap` iteration order), provided the names are distinct as
they are in a `HashMap`. -/
theorem C7_header_sorted_deterministic (l1 l2 : CookieMap)
    (h1 : (cookieNames l1).Nodup) (hp : l1.Perm l2) :
    to_header_value l1 = to_header_value l2 ∧
    List.Pairwise (fun p q => pairLe p q = true) (l1.mergeSort pairLe) ∧
    to_header_value l1 = joinSemi ((l1.mergeSort pairLe).map renderPair) := by
  have htrans : ∀ a b c : (List Char) × (List Char),
      pairLe a b = true → pairLe b c = true → pairLe a c = true :=
    fun a b c hab hbc => strLe_trans a.1 b.1 c.1 hab hbc
  have htotal : ∀ a b : (List Char) × (List Char), (pairLe a b || pairLe b a) = true :=
    fun a b => strLe_total a.1 b.1
  have hs1 := List.sorted_mergeSort htrans htotal l1
  have hs2 := List.sorted_mergeSort htrans htotal l2
  have hperm : (l1.mergeSort pairLe).Perm (l2.mergeSort pairLe) :=
    ((List.mergeSort_perm l1 pairLe).trans hp).trans (List.mergeSort_perm l2 pairLe).symm
  have hanti : ∀ a b : (List Char) × (List Char),
      a ∈ l1.mergeSort pairLe → b ∈ l2.mergeSort pairLe →
      pairLe a b = true → pairLe b a = true → a = b := by
    intro a b hain hbin hab hba
    have ha1 : a ∈ l1 := (List.mergeSort_perm l1 pairLe).mem_iff.mp hain
    have hb1 : b ∈ l1 := hp.mem_iff.mpr ((List.mergeSort_perm l2 pairLe).mem_iff.mp hbin)
    have hfst : a.1 = b.1 := strLe_antisymm a.1 b.1 hab hba
    exact List.inj_on_of_nodup_map h1 ha1 hb1 hfst
  have hsorteq : l1.mergeSort pairLe = l2.mergeSort pairLe :=
    List.Perm.eq_of_sorted hanti hs1 hs2 hperm
  refine ⟨?_, hs1, rfl⟩
  unfold to_header_value
  rw [hsorteq]

/-- Witness for C7: two permuted two-cookie stores with distinct names
produce the same header value. -/
theorem C7_witness :
    (cookieNames [("b".toList, "2".toList), ("a".toList, "1".toList)]).Nodup ∧
    List.Perm [("b".toList, "2".toList), ("a".toList, "1".toList)]
      [("a".toList, "1".toList), ("b".toList, "2".toList)] ∧
    to_header_value [("b".toList, "2".toList), ("a".toList, "1".toList)] =
      to_header_value [("a".toList, "1".toList), ("b".toList, "2".toList)] :=
  ⟨by decide, by decide,
   (C7_header_sorted_deterministic
     [("b".toList, "2".toList), ("a".toList, "1".toList)]
     [("a".toList, "1".toList), ("b".toList, "2".toList)]
     (by decide) (by decide)).1⟩

theorem traverseOpt_isSome (f : α → Option β) : ∀ l : List α,
    (traverseOpt f l).isSome = l.all (fun a => (f a).isSome) := by
  intro l
  induction l with
  | nil => rfl
  | cons a rest ih =>
    rw [List.all_cons]
    cases hf : f a with
    | none => simp [traverseOpt, hf]
    | some b => simp [traverseOpt, hf, ih]

theorem mkEntry_isSome (o1 o2 : Option (List Char)) :
    (mkEntry o1 o2).isSome = (o1.isSome && o2.isSome) := by
  cases o1 <;> cases o2 <;> rfl

theorem entryOfJson_isSome (j : Json) : (entryOfJson j).isSome = isEntryShape j := by
  cases j with
  | obj fields => exact mkEntry_isSome _ _
  | null => rfl
  | bool b => rfl
  | num n => rfl
  | str s => rfl
  | arr items => rfl

theorem tryMap_isSome (v : Json) : (tryMap v).isSome = isMapShape v := by
  cases v with
  | obj fields =>
    unfold tryMap isMapShape
    rw [traverseOpt_isSome]
    simp [Option.isSome_map]
  | null => rfl
  | bool b => rfl
  | num n => rfl
  | str s => rfl
  | arr items => rfl

theorem tryList_isSome (v : Json) : (tryList v).isSome = isListShape v := by
  cases v with
  | arr items =>
    unfold tryList isListShape
    rw [traverseOpt_isSome]
    simp [entryOfJson_isSome]
  | null => rfl
  | bool b => rfl
  | num n => rfl
  | str s => rfl
  | obj fields => rfl

theorem find?_pair_cons_pos (key : List Char) (q : (List Char) × (List Char))
    (l : CookieMap) (h : (q.1 == key) = true) :
    List.find? (fun r => r.1 == key) (q :: l) = some q :=
  List.find?_cons_of_pos _ h

theorem find?_pair_cons_neg (key : List Char) (q : (List Char) × (List Char))
    (l : CookieMap) (h : (q.1 == key) = false) :
    List.find? (fun r => r.1 == key) (q :: l) = List.find? (fun r => r.1 == key) l :=
  List.find?_cons_of_neg _ (by rw [h]; simp)

theorem find?_map_replace (k v : List Char) : ∀ m : CookieMap,
    m.any (fun p => p.1 == k) = true →
    ((m.map (fun p => if p.1 == k then (k, v) else p)).find? (fun p => p.1 == k))
      = some (k, v) := by
  intro m
  induction m with
  | nil =>
    intro h
    simp at h
  | cons p rest ih =>
    intro h
    by_cases hp : (p.1 == k) = true
    · rw [List.map_cons, if_pos hp, find?_pair_cons_pos k (k, v) _ (by simp)]
    · rw [List.any_cons, Bool.or_eq_true] at h
      rcases h with h | h
      · exact absurd h hp
      · rw [List.map_cons, if_neg hp,
          find?_pair_cons_neg k p _ (Bool.not_eq_true _ ▸ hp)]
        exact ih h

theorem find?_map_replace_ne (k k2 v : List Char) (hne : (k == k2) = false) :
    ∀ m : CookieMap,
    ((m.map (fun p => if p.1 == k then (k, v) else p)).find? (fun p => p.1 == k2))
      = m.find? (fun p => p.1 == k2) := by
  intro m
  induction m with
  | nil => rfl
  | cons p rest ih =>
    by_cases hp : (p.1 == k) = true
    · have hpk : p.1 = k := beq_iff_eq.mp hp
      rw [List.map_cons, if_pos hp, find?_pair_cons_neg k2 (k, v) _ hne,
        find?_pair_cons_neg k2 p _ (by rw [hpk]; exact hne)]
      exact ih
    · rw [List.map_cons, if_neg hp]
      by_cases hp2 : (p.1 == k2) = true
      · rw [find?_pair_cons_pos k2 p _ hp2, find?_pair_cons_pos k2 p _ hp2]
      · rw [find?_pair_cons_neg k2 p _ (Bool.not_eq_true _ ▸ hp2),
          find?_pair_cons_neg k2 p _ (Bool.not_eq_true _ ▸ hp2)]
        exact ih

theorem lookupPair_insert_self (m : CookieMap) (k v : List Char) :
    lookupPair (insertPair m k v) k = some v := by
  unfold insertPair lookupPair
  by_cases hany : m.any (fun p => p.1 == k) = true
  · rw [if_pos hany, find?_map_replace k v m hany]
    rfl
  · rw [if_neg hany, List.find?_append]
    have hnone : m.find? (fun p => p.1 == k) = none := by
      rw [List.find?_eq_none]
      intro x hx hpx
      exact hany (List.any_eq_true.mpr ⟨x, hx, hpx⟩)
    rw [hnone, Option.none_or]
    simp

theorem lookupPair_insert_ne (m : CookieMap) (k k2 v : List Char)
    (hne : (k == k2) = false) :
    lookupPair (insertPair m k v) k2 = lookupPair m k2 := by
  unfold insertPair lookupPair
  by_cases hany : m.any (fun p => p.1 == k) = true
  · rw [if_pos hany, find?_map_replace_ne k k2 v hne m]
  · rw [if_neg hany, List.find?_append]
    have hone : List.find? (fun p => p.1 == k2) [(k, v)] = none := by
      simp [List.find?, hne]
    rw [hone, Option.or_none]

theorem fold_insert_lookup (k : List Char) : ∀ (entries : List CookieEntry)
    (init : CookieMap),
    lookupPair (entries.foldl (fun acc e => insertPair acc e.name e.value) init) k
      = (lastValueFor entries k).or (lookupPair init k) := by
  intro entries
  induction entries with
  | nil =>
    intro init
    simp [lastValueFor, Option.none_or]
  | cons e rest ih =>
    intro init
    rw [List.foldl_cons, ih]
    have hlast : lastValueFor (e :: rest) k =
        (lastValueFor rest k).or (if (e.name == k) = true then some e.value else none) := by
      unfold lastValueFor
      rw [List.reverse_cons, List.find?_append]
      cases hf : rest.reverse.find? (fun x => x.name == k) with
      | some x => simp [Option.or]
      | none =>
        cases he : (e.name == k) with
        | true => simp [Option.or, List.find?, he]
        | false => simp [Option.or, List.find?, he]
    rw [hlast]
    cases he : (e.name == k) with
    | true =>
      have hek : e.name = k := beq_iff_eq.mp he
      rw [if_pos rfl]
      rw [hek, lookupPair_insert_self]
      rw [Option.or_assoc]
      simp [Option.or]
    | false =>
      rw [if_neg (by simp), lookupPair_insert_ne init e.name k e.value he,
        Option.or_none]

/-- C8: `from_value` accepts exactly the two JSON shapes of `CookiesJson` —
an object mapping cookie names to string values, or an array of objects
with string `name` and `value` fields — and for the array shape the
resulting store maps each name to the value of its last entry. -/
theorem C8_from_value_shapes :
    (∀ v : Json, (from_value v).isSome = (isMapShape v || isListShape v)) ∧
    (∀ (items : List Json) (entries : List CookieEntry) (k : List Char),
      tryList (Json.arr items) = some entries →
      (from_value (Json.arr items)).bind (fun m => lookupPair m k)
        = lastValueFor entries k) := by
  constructor
  · intro v
    unfold from_value
    cases hm : tryMap v with
    | some m =>
      have : isMapShape v = true := by rw [← tryMap_isSome, hm]; rfl
      simp [this]
    | none =>
      have hms : isMapShape v = false := by rw [← tryMap_isSome, hm]; rfl
      rw [hms, Bool.false_or, ← tryList_isSome]
      simp [Option.isSome_map]
  · intro items entries k h
    have hv : from_value (Json.arr items) = (tryList (Json.arr items)).map listToMap := rfl
    rw [hv, h]
    show lookupPair (listToMap entries) k = lastValueFor entries k
    unfold listToMap
    rw [fold_insert_lookup]
    have hnil : lookupPair [] k = none := rfl
    rw [hnil, Option.or_none]

/-- Witness for C8 at the duplicate-name array of the repository's own
test `duplicate_names_keep_last`: the store keeps the value `NEW` of the
last `sess` entry. -/
theorem C8_witness :
    tryList (Json.arr [Json.obj [("name".toList, Json.str "sess".toList),
        ("value".toList, Json.str "OLD".toList)],
      Json.obj [("name".toList, Json.str "sess".toList),
        ("value".toList, Json.str "NEW".toList)]]) =
      some [⟨"sess".toList, "OLD".toList⟩, ⟨"sess".toList, "NEW".toList⟩] ∧
    (from_value (Json.arr [Json.obj [("name".toList, Json.str "sess".toList),
        ("value".toList, Json.str "OLD".toList)],
      Json.obj [("name".toList, Json.str "sess".toList),
        ("value".toList, Json.str "NEW".toList)]])).bind
      (fun m => lookupPair m "sess".toList) = some "NEW".toList :=
  ⟨by decide,
   (C8_from_value_shapes.2 [Json.obj [("name".toList, Json.str "sess".toList),
        ("value".toList, Json.str "OLD".toList)],
      Json.obj [("name".toList, Json.str "sess".toList),
        ("value".toList, Json.str "NEW".toList)]]
      [⟨"sess".toList, "OLD".toList⟩, ⟨"sess".toList, "NEW".toList⟩]
      "sess".toList (by decide)).trans (by decide)⟩

/-- C5: the sanitizer output contains no character of the illegal set
`<>:"/\|?*`, no control character, no leading and no trailing whitespace,
and no run of two or more consecutive whitespace characters.  This holds
for every normalization function `nfc`, in particular for the NFC
normalization used by the source. -/
theorem C5_sanitize_clean (nfc : List Char → List Char) (s : List Char) :
    (∀ c ∈ sanitize_filename nfc s, isRustControl c = false ∧ ILLEGAL.contains c = false) ∧
    (sanitize_filename nfc s).head?.all (fun c => !isRustWhitespace c) = true ∧
    (sanitize_filename nfc s).getLast?.all (fun c => !isRustWhitespace c) = true ∧
    noTwoWs (sanitize_filename nfc s) = true :=
  ⟨fun _ hc => sanitize_mem_clean nfc s hc, sanitize_head_clean nfc s,
   sanitize_last_clean nfc s, sanitize_noTwoWs nfc s⟩

/-- Witness for C5 at the concrete title `" My  Book: Title! "` and the
character `M` of its sanitized form. -/
theorem C5_witness :
    'M' ∈ sanitize_filename id " My  Book: Title! ".toList ∧
    (isRustControl 'M' = false ∧ ILLEGAL.contains 'M' = false) ∧
    (sanitize_filename id " My  Book: Title! ".toList).head?.all
      (fun c => !isRustWhitespace c) = true :=
  ⟨by decide,
   (C5_sanitize_clean id " My  Book: Title! ".toList).1 'M' (by decide),
   (C5_sanitize_clean id " My  Book: Title! ".toList).2.1⟩

/-- C4: the sanitizer is idempotent: `sanitize(sanitize(s)) = sanitize(s)`.
The normalization performed by the external `unicode_normalization` crate
enters through the hypothesis that `nfc` fixes the already-sanitized
string, which holds for real NFC because the first sanitization pass
normalizes and the later passes only substitute or drop characters of
combining class 0 that take part in no canonical composition. -/
theorem C4_sanitize_idempotent (nfc : List Char → List Char) (s : List Char)
    (h : nfc (sanitize_filename nfc s) = sanitize_filename nfc s) :
    sanitize_filename nfc (sanitize_filename nfc s) = sanitize_filename nfc s := by
  rw [show sanitize_filename nfc (sanitize_filename nfc s) =
    trimChars (collapseWs (replaceIllegal (nfc (sanitize_filename nfc s))) false) from rfl, h]
  rw [replaceIllegal_fix _ (fun c hc => sanitize_mem_clean nfc s hc)]
  rw [(collapseWs_fix _ (fun c hc hw => sanitize_ws_space nfc s hc hw)
    (sanitize_noTwoWs nfc s)).1]
  exact trimChars_fix _ (sanitize_head_clean nfc s) (sanitize_last_clean nfc s)

/-- Witness for C4 at `nfc = id` and the title `" My  Book: Title! "`. -/
theorem C4_witness :
    id (sanitize_filename id " My  Book: Title! ".toList) =
      sanitize_filename id " My  Book: Title! ".toList ∧
    sanitize_filename id (sanitize_filename id " My  Book: Title! ".toList) =
      sanitize_filename id " My  Book: Title! ".toList :=
  ⟨rfl, C4_sanitize_idempotent id " My  Book: Title! ".toList rfl⟩

/-- Sanity check mirroring the spec scenario: sanitizing
`" My  Book: Title! "` yields `"My Book_ Title!"`. -/
theorem sanitize_scenario :
    sanitize_filename id " My  Book: Title! ".toList = "My Book_ Title!".toList := by decide

/-- Sanity check mirroring the repository test `loads_from_map` shape
rejection: a bare JSON string is not an accepted cookie-file shape. -/
theorem from_value_reject_scenario :
    from_value (Json.str "not-json-shape".toList) = none := by decide

end Safari
